import Mathlib

/-!
Verification of the graph-construction core of the indoor-navigation tool
(`svg_to_graph_final.py`, `svg_to_graph_improved.py`, `svg_to_graph.py`).

The Python functions are shallowly embedded as Lean functions over exact
rational arithmetic.  Floating-point comparisons of Euclidean distances
(`math.hypot(dx,dy) < r`) are expressed without square roots as
`0 < r ∧ dx^2 + dy^2 < r^2`, which is equivalent for exact arithmetic since
`hypot ≥ 0` and squaring is strictly monotone on nonnegatives.
External geometry (shapely) appears as opaque boolean query functions, and the
external shortest-path routine (networkx) is modelled from its documented
contract; everything else is translated directly from the source.
-/

/-- A candidate point as used by `dedupe` in svg_to_graph_final.py:
an `(x, y, meta)` triple where `meta` is an optional label. -/
structure Cand where
  x : ℚ
  y : ℚ
  label : Option String
deriving DecidableEq

/-- Squared Euclidean distance between two candidates. -/
def dist2 (p q : Cand) : ℚ := (p.x - q.x) ^ 2 + (p.y - q.y) ^ 2

/-- The test `math.hypot(xx - x, yy - y) < min_dist` from `dedupe`
(svg_to_graph_final.py line 243), square-root free. -/
def isClose (p q : Cand) (minDist : ℚ) : Bool :=
  decide (0 < minDist) && decide (dist2 p q < minDist ^ 2)

/-- Loop of `dedupe` (svg_to_graph_final.py lines 239-247): `kept` is the
accumulator of accepted points; a point is skipped iff it is strictly closer
than `minDist` to some already kept point. -/
def dedupeGo (minDist : ℚ) : List Cand → List Cand → List Cand
  | kept, [] => kept
  | kept, p :: rest =>
      if kept.any (fun q => isClose q p minDist) then dedupeGo minDist kept rest
      else dedupeGo minDist (kept ++ [p]) rest

/-- `dedupe(points, min_dist)` from svg_to_graph_final.py lines 238-248. -/
def dedupe (points : List Cand) (minDist : ℚ) : List Cand :=
  dedupeGo minDist [] points

/-- Spec-side reformulation of the deduplicator for claim C2: every candidate
is annotated in order with an accept flag; a candidate's flag is `false` iff
it lies strictly within `minDist` of some earlier candidate whose flag is
`true` (an "already-accepted" candidate). -/
def flagGo (minDist : ℚ) : List (Cand × Bool) → List Cand → List (Cand × Bool)
  | acc, [] => acc
  | acc, p :: rest =>
      flagGo minDist
        (acc ++ [(p, !(acc.any fun qb => qb.2 && isClose qb.1 p minDist))]) rest

/-- All candidates with their accept/reject flags, in input order. -/
def specFlags (points : List Cand) (minDist : ℚ) : List (Cand × Bool) :=
  flagGo minDist [] points

/-- The candidates whose flag is `true`, in order. -/
def keptOf (l : List (Cand × Bool)) : List Cand :=
  (l.filter fun qb => qb.2).map fun qb => qb.1

/-- The `1e-9` slack in the loop bounds of `sample_grid`
(svg_to_graph_final.py lines 230 and 232). -/
def eps : ℚ := 1 / 1000000000

/-- Number of iterations of the loop `v = lo; while v < bound: ...; v += step`
for a positive `step`: the least `n` with `lo + n * step ≥ bound`. -/
def axisCount (lo bound step : ℚ) : ℕ := (⌈(bound - lo) / step⌉).toNat

/-- The values emitted by `v = lo; while v < bound: emit v; v += step`. -/
def gridAxis (lo bound step : ℚ) : List ℚ :=
  (List.range (axisCount lo bound step)).map fun i : ℕ => lo + (i : ℚ) * step

/-- `sample_grid(w, h, spacing, margin)` from svg_to_graph_final.py lines
227-236: row-major (y outer, x inner) grid of points `x,y ≥ margin` with
`x < w - margin + 1e-9` and `y < h - margin + 1e-9`. -/
def sample_grid (w h spacing margin : ℚ) : List (ℚ × ℚ) :=
  (gridAxis margin (h - margin + eps) spacing).flatMap fun y =>
    (gridAxis margin (w - margin + eps) spacing).map fun x => (x, y)

/-- `build_nodes(svg_info)` from svg_to_graph_final.py lines 266-278:
labeled text positions first, then the grid samples, then `dedupe`. -/
def build_nodes (texts : List (String × ℚ × ℚ)) (w h spacing minDist margin : ℚ) :
    List Cand :=
  dedupe
    ((texts.map fun t => ⟨t.2.1, t.2.2, some t.1⟩) ++
      (sample_grid w h spacing margin).map fun p => ⟨p.1, p.2, none⟩)
    minDist

/-- `remove_points_in_obstacles` (svg_to_graph_final.py lines 257-264): the
buffered obstacle union is an opaque point-containment query (shapely
`p.within(obstacle_union.buffer(buffer_px))`); `none` models the run where no
obstacle union was built. -/
def remove_points_in_obstacles (points : List Cand)
    (region : Option (ℚ → ℚ → Bool)) : List Cand :=
  match region with
  | none => points
  | some contains => points.filter fun p => !(contains p.x p.y)

/-- A final node object (svg_to_graph_final.py lines 350-356). -/
structure Node where
  id : ℕ
  x : ℚ
  y : ℚ
  label : Option String
deriving DecidableEq

instance : Inhabited Node := ⟨⟨0, 0, 0, none⟩⟩

/-- Assigning sequential ids `node1, node2, ...` to the surviving candidates
(svg_to_graph_final.py lines 351-356); ids are modelled as the numeric index. -/
def mkNodesGo (i : ℕ) : List Cand → List Node
  | [] => []
  | p :: rest => ⟨i, p.x, p.y, p.label⟩ :: mkNodesGo (i + 1) rest

/-- The final node list of `main` in svg_to_graph_final.py. -/
def mkNodes (pts : List Cand) : List Node := mkNodesGo 1 pts

/-- Squared Euclidean distance between two nodes. -/
def ndist2 (a b : Node) : ℚ := (a.x - b.x) ^ 2 + (a.y - b.y) ^ 2

/-- Squared Euclidean distance between two coordinate pairs. -/
def qdist2 (a b : ℚ × ℚ) : ℚ := (a.1 - b.1) ^ 2 + (a.2 - b.2) ^ 2

/-- Python slice `l[:k]` for an integer `k`: a negative `k` counts from the
end (`l[:-1]` drops the last element), clamped at the empty list. -/
def pyTake {α : Type} (k : ℤ) (l : List α) : List α :=
  if k < 0 then l.take ((l.length : ℤ) + k).toNat else l.take k.toNat

/-- `tuple(sorted((a, b)))` (svg_to_graph_final.py line 306): the unordered
edge `(a, b)` in its canonical orientation. -/
def normPair (a b : ℕ) : ℕ × ℕ := if a ≤ b then (a, b) else (b, a)

/-- Lexicographic order on the `(distance, index)` pairs that
`build_edges_from_nodes` sorts (`dlist.sort()` on Python tuples). -/
def lexLe (p q : ℚ × ℕ) : Prop := p.1 < q.1 ∨ (p.1 = q.1 ∧ p.2 ≤ q.2)

/-- Strict version of `lexLe`. -/
def lexLt (p q : ℚ × ℕ) : Prop := p.1 < q.1 ∨ (p.1 = q.1 ∧ p.2 < q.2)

instance : DecidableRel lexLe := fun p q => by unfold lexLe; infer_instance

instance : DecidableRel lexLt := fun p q => by unfold lexLt; infer_instance

instance : IsTotal (ℚ × ℕ) lexLe := by
  constructor
  intro a b
  rcases lt_trichotomy a.1 b.1 with h | h | h
  · exact Or.inl (Or.inl h)
  · rcases Nat.le_total a.2 b.2 with h2 | h2
    · exact Or.inl (Or.inr ⟨h, h2⟩)
    · exact Or.inr (Or.inr ⟨h.symm, h2⟩)
  · exact Or.inr (Or.inl h)

instance : IsTrans (ℚ × ℕ) lexLe := by
  constructor
  rintro a b c (h | ⟨h, h2⟩) (g | ⟨g, g2⟩)
  · exact Or.inl (h.trans g)
  · exact Or.inl (g ▸ h)
  · exact Or.inl (h ▸ g)
  · exact Or.inr ⟨h.trans g, h2.trans g2⟩

/-- The `(distance, index)` list built for node `i` by the naive branch of
`build_edges_from_nodes` (svg_to_graph_final.py lines 296-302): one entry per
`j ≠ i`, carrying the (squared) distance from node `i` to node `j`. -/
def dlistFor (coords : List (ℚ × ℚ)) (i : ℕ) : List (ℚ × ℕ) :=
  coords.enum.filterMap fun ja =>
    if ja.1 = i then none else some (qdist2 (coords.getD i (0, 0)) ja.2, ja.1)

/-- Number of entries of `dlistFor coords i` lexicographically smaller than
node `j`'s entry: how many other nodes are strictly closer to node `i` than
node `j` is (ties broken by list index, as Python's tuple sort does). -/
def knnRank (coords : List (ℚ × ℚ)) (i j : ℕ) : ℕ :=
  (dlistFor coords i).countP fun e =>
    decide (lexLt e (qdist2 (coords.getD i (0, 0)) (coords.getD j (0, 0)), j))

/-- Spec-side reading of "node `j` is among node `i`'s `k` nearest other
nodes": fewer than `k` other nodes precede `j` in the closest-first order. -/
def isKNearest (coords : List (ℚ × ℚ)) (i j k : ℕ) : Prop :=
  j < coords.length ∧ j ≠ i ∧ knnRank coords i j < k

instance : ∀ coords i j k, Decidable (isKNearest coords i j k) := fun _ _ _ _ => by
  unfold isKNearest; infer_instance

/-- `build_edges_from_nodes(nodes_list, k)` (svg_to_graph_final.py lines
280-307, naive branch; the KDTree branch is required by the spec to agree):
for each node index `i`, sort all other nodes by `(distance, index)` and link
`i` to the first `k` of them; edges are canonicalised with `normPair` and
collected as a set (modelled as a duplicate-free list). -/
def build_edges_from_nodes (nodes : List Node) (k : ℤ) : List (ℕ × ℕ) :=
  (((List.range nodes.length).flatMap fun i =>
      (pyTake k ((dlistFor (nodes.map fun n => (n.x, n.y)) i).insertionSort lexLe)).map
        fun dj => normPair (nodes.getD i default).id (nodes.getD dj.2 default).id)).dedup

/-- The `id_to_node` coordinate lookup of `prune_edges_by_obstacles`
(svg_to_graph_final.py line 313). -/
def nodePos (nodes : List Node) (a : ℕ) : ℚ × ℚ :=
  (((nodes.find? fun n => n.id == a).getD default).x,
    ((nodes.find? fun n => n.id == a).getD default).y)

/-- `prune_edges_by_obstacles(nodes_list, edges, obstacle_union, buffer_px)`
(svg_to_graph_final.py lines 309-321).  The buffered obstacle union is an
opaque segment-intersection query (shapely
`seg.intersects(obstacle_union.buffer(buffer_px))`); `none` models the run
where no obstacle union was built, in which case the edge list is returned
unchanged. -/
def prune_edges_by_obstacles (nodes : List Node) (edges : List (ℕ × ℕ))
    (obstacleUnion : Option ((ℚ × ℚ) → (ℚ × ℚ) → Bool)) : List (ℕ × ℕ) :=
  match obstacleUnion with
  | none => edges
  | some sect =>
      edges.filter fun e => !(sect (nodePos nodes e.1) (nodePos nodes e.2))

/-- Loop of `nearest_node` (svg_to_graph_final.py lines 323-329), carrying the
best node so far and the squared best distance.  The source initialises the
best distance to `1e9` and updates on strict improvement only. -/
def nnGo (x y : ℚ) : List Node → Option Node × ℚ → Option Node × ℚ
  | [], acc => acc
  | n :: rest, (best, bd2) =>
      if (n.x - x) ^ 2 + (n.y - y) ^ 2 < bd2 then
        nnGo x y rest (some n, (n.x - x) ^ 2 + (n.y - y) ^ 2)
      else nnGo x y rest (best, bd2)

/-- The square of the `1e9` sentinel initialising `bd` in `nearest_node`. -/
def bigD2 : ℚ := 1000000000 ^ 2

/-- `nearest_node(nodes_list, x, y)` from svg_to_graph_final.py lines 323-329:
returns `none` when no node beats the `1e9` sentinel (in particular on the
empty list). -/
def nearest_node (nodes : List Node) (x y : ℚ) : Option Node :=
  (nnGo x y nodes (none, bigD2)).1

/-- Undirected adjacency of the graph assembled by `build_nx_and_path`
(svg_to_graph.py lines 194-200): `a` and `b` are adjacent iff the edge list
contains the pair in either orientation. -/
def adjB (edges : List (ℕ × ℕ)) (a b : ℕ) : Bool :=
  edges.any fun e => (e.1 == a && e.2 == b) || (e.1 == b && e.2 == a)

/-- Graph-connectivity: `t` is reachable from `s` through the edge list. -/
def Reachable (edges : List (ℕ × ℕ)) (s t : ℕ) : Prop :=
  Relation.ReflTransGen (fun a b => adjB edges a b = true) s t

/-- Boolean test that consecutive entries of a route are adjacent. -/
def chainB (edges : List (ℕ × ℕ)) : List ℕ → Bool
  | [] => true
  | [_] => true
  | a :: b :: rest => adjB edges a b && chainB edges (b :: rest)

/-- A walk of the graph from `s` to `t`: nonempty, starts at `s`, ends at
`t`, consecutive entries adjacent, every entry a graph node.  Repetitions are
allowed; a simple path is a walk with no repetitions. -/
def ValidWalk (ids : List ℕ) (edges : List (ℕ × ℕ)) (s t : ℕ) (p : List ℕ) : Prop :=
  p.head? = some s ∧ p.getLast? = some t ∧
    chainB edges p = true ∧ ∀ x ∈ p, x ∈ ids

instance : ∀ ids edges s t p, Decidable (ValidWalk ids edges s t p) :=
  fun ids edges s t p =>
    inferInstanceAs (Decidable (p.head? = some s ∧ p.getLast? = some t ∧
      chainB edges p = true ∧ ∀ x ∈ p, x ∈ ids))

/-- All sublists of a list (an executable powerset enumeration). -/
def subsB : List ℕ → List (List ℕ)
  | [] => [[]]
  | a :: l => subsB l ++ (subsB l).map fun r => a :: r

/-- All ways of inserting `a` into a list. -/
def insertAll (a : ℕ) : List ℕ → List (List ℕ)
  | [] => [[a]]
  | b :: l => (a :: b :: l) :: (insertAll a l).map fun r => b :: r

/-- All permutations of a list (an executable enumeration). -/
def permsB : List ℕ → List (List ℕ)
  | [] => [[]]
  | a :: l => (permsB l).flatMap (insertAll a)

/-- All simple candidate routes from `s` to `t`: duplicate-free lists drawn
from the node ids that form a valid walk. -/
def routeCands (ids : List ℕ) (edges : List (ℕ × ℕ)) (s t : ℕ) : List (List ℕ) :=
  ((subsB ids).flatMap permsB).filter fun p =>
    decide (ValidWalk ids edges s t p)

/-- Total weight of a route under edge-weight map `w`. -/
def pathWeight (w : ℕ → ℕ → ℚ) : List ℕ → ℚ
  | [] => 0
  | [_] => 0
  | a :: b :: rest => w a b + pathWeight w (b :: rest)

/-- The minimum-weight element of a list of routes, `none` on the empty list. -/
def pickMin (w : ℕ → ℕ → ℚ) : List (List ℕ) → Option (List ℕ)
  | [] => none
  | p :: rest =>
      match pickMin w rest with
      | none => some p
      | some q => if pathWeight w p < pathWeight w q then some p else some q

/-- Modelled from the spec: `nx.shortest_path(G, start_id, end_id,
weight=...)` is third-party code (networkx) absent from src/.  Per the spec's
PathQuery contract (§4.6) it is a Dijkstra-class weighted shortest-path
routine: it returns a minimum-weight simple path from `start_id` to `end_id`,
and the exceptions it raises when no path exists or an endpoint is absent are
caught by `build_nx_and_path` and mapped to `None` (modelled here as `none`). -/
def nxShortestPath (ids : List ℕ) (edges : List (ℕ × ℕ)) (w : ℕ → ℕ → ℚ)
    (s t : ℕ) : Option (List ℕ) :=
  pickMin w (routeCands ids edges s t)

/-- `build_nx_and_path(nodes, edges, start_id, end_id)` from svg_to_graph.py
lines 191-205: returns `None` immediately when networkx is unavailable
(`HAVE_NX` false), otherwise queries the shortest-path routine.  The weight
map `w` is a parameter; the source instantiates it with the Euclidean
distance `math.hypot(na-nb)` between the edge's endpoint coordinates, which
is always nonnegative. -/
def build_nx_and_path (haveNX : Bool) (nodes : List Node) (edges : List (ℕ × ℕ))
    (w : ℕ → ℕ → ℚ) (s t : ℕ) : Option (List ℕ) :=
  if haveNX then nxShortestPath (nodes.map fun n => n.id) edges w s t else none


/-! ### Helper lemmas -/

lemma keptOf_append (l₁ l₂ : List (Cand × Bool)) :
    keptOf (l₁ ++ l₂) = keptOf l₁ ++ keptOf l₂ := by
  simp [keptOf, List.filter_append]

lemma keptOf_any (acc : List (Cand × Bool)) (p : Cand) (m : ℚ) :
    (keptOf acc).any (fun q => isClose q p m) =
      acc.any fun qb => qb.2 && isClose qb.1 p m := by
  induction acc with
  | nil => rfl
  | cons qb rest ih =>
      cases hb : qb.2 <;>
        simp [keptOf, List.filter_cons, hb, ih] <;> simp [keptOf] at ih <;>
          rw [ih]

lemma dedupeGo_eq_flagGo (m : ℚ) :
    ∀ (pts : List Cand) (acc : List (Cand × Bool)),
      dedupeGo m (keptOf acc) pts = keptOf (flagGo m acc pts) := by
  intro pts
  induction pts with
  | nil => intro acc; rfl
  | cons p rest ih =>
      intro acc
      show (if (keptOf acc).any (fun q => isClose q p m) then dedupeGo m (keptOf acc) rest
            else dedupeGo m (keptOf acc ++ [p]) rest) = keptOf (flagGo m acc (p :: rest))
      rw [keptOf_any, flagGo, ← ih, keptOf_append]
      cases h : acc.any (fun qb => qb.2 && isClose qb.1 p m) with
      | false => simp [keptOf]
      | true => simp [keptOf]

lemma flagGo_map_fst (m : ℚ) :
    ∀ (pts : List Cand) (acc : List (Cand × Bool)),
      (flagGo m acc pts).map Prod.fst = acc.map Prod.fst ++ pts := by
  intro pts
  induction pts with
  | nil => intro acc; simp [flagGo]
  | cons p rest ih => intro acc; rw [flagGo, ih]; simp

/-- The rejection characterisation of the flags: a flag is `false` iff the
candidate is strictly within `m` of an earlier accepted candidate. -/
def FlagSpec (m : ℚ) (l : List (Cand × Bool)) : Prop :=
  ∀ pre qb post, l = pre ++ qb :: post →
    ((qb : Cand × Bool).2 = false ↔
      ∃ qc ∈ pre, (qc : Cand × Bool).2 = true ∧ isClose qc.1 qb.1 m = true)

lemma flagSpec_snoc (m : ℚ) (acc : List (Cand × Bool)) (p : Cand)
    (hP : FlagSpec m acc) :
    FlagSpec m (acc ++ [(p, !(acc.any fun qb => qb.2 && isClose qb.1 p m))]) := by
  intro pre qb post heq
  cases post with
  | nil =>
      have hlen : acc.length = pre.length := by
        have := congrArg List.length heq
        simp at this
        omega
      obtain ⟨h1, h2⟩ := List.append_inj heq.symm hlen.symm
      have hqb : qb = (p, !(acc.any fun qb => qb.2 && isClose qb.1 p m)) := by
        simpa using h2
      subst h1
      rw [hqb]
      simp [List.any_eq_true, Bool.and_eq_true]
  | cons r post2 =>
      have hdrop := congrArg List.dropLast heq
      rw [List.dropLast_concat] at hdrop
      rw [List.dropLast_append_of_ne_nil _ (by simp : qb :: r :: post2 ≠ [])] at hdrop
      have : (qb :: r :: post2).dropLast = qb :: (r :: post2).dropLast := by
        simp
      rw [this] at hdrop
      exact hP pre qb ((r :: post2).dropLast) hdrop

lemma flagGo_flagSpec (m : ℚ) :
    ∀ (pts : List Cand) (acc : List (Cand × Bool)),
      FlagSpec m acc → FlagSpec m (flagGo m acc pts) := by
  intro pts
  induction pts with
  | nil => intro acc h; exact h
  | cons p rest ih =>
      intro acc h
      rw [flagGo]
      exact ih _ (flagSpec_snoc m acc p h)

lemma flagSpec_nil (m : ℚ) : FlagSpec m [] := by
  intro pre qb post h
  cases pre <;> simp at h

lemma specFlags_flagSpec (pts : List Cand) (m : ℚ) : FlagSpec m (specFlags pts m) :=
  flagGo_flagSpec m pts [] (flagSpec_nil m)

/-! ### C1: the visibility pruner -/

/-- C1: `prune_edges_by_obstacles` returns exactly the subset of input edges
whose connecting segment does not intersect the buffered obstacle region
(membership characterisation plus order-preserving subset), and is the
identity when no obstacle region was built. -/
theorem C1_visibility_pruner (nodes : List Node) (edges : List (ℕ × ℕ)) :
    prune_edges_by_obstacles nodes edges none = edges ∧
    ∀ sect : (ℚ × ℚ) → (ℚ × ℚ) → Bool,
      (prune_edges_by_obstacles nodes edges (some sect)).Sublist edges ∧
      ∀ e, e ∈ prune_edges_by_obstacles nodes edges (some sect) ↔
        e ∈ edges ∧ sect (nodePos nodes e.1) (nodePos nodes e.2) = false := by
  refine ⟨rfl, fun sect => ⟨List.filter_sublist edges, fun e => ?_⟩⟩
  simp [prune_edges_by_obstacles, List.mem_filter]

/-! ### C2: the deduplicator -/

/-- C2: `dedupe` returns an order-preserving subsequence of its input, equal
to the candidates carrying a `true` flag in `specFlags`, where (per the flag
characterisation) a candidate's flag is `false` — i.e. it is rejected — iff
its Euclidean distance to some earlier accepted candidate is strictly below
`min_node_distance` (`0 < m ∧ dist2 < m²` is `hypot < m` square-root free). -/
theorem C2_deduplicator (pts : List Cand) (m : ℚ) :
    (dedupe pts m).Sublist pts ∧
    (specFlags pts m).map Prod.fst = pts ∧
    dedupe pts m = keptOf (specFlags pts m) ∧
    ∀ pre qb post, specFlags pts m = pre ++ qb :: post →
      ((qb : Cand × Bool).2 = false ↔
        ∃ qc ∈ pre, (qc : Cand × Bool).2 = true ∧
          0 < m ∧ dist2 qc.1 qb.1 < m ^ 2) := by
  have hmap : (specFlags pts m).map Prod.fst = pts := by
    simpa using flagGo_map_fst m pts []
  have heq : dedupe pts m = keptOf (specFlags pts m) := by
    simpa [keptOf] using dedupeGo_eq_flagGo m pts []
  refine ⟨?_, hmap, heq, ?_⟩
  · rw [heq]
    have h1 : (keptOf (specFlags pts m)).Sublist ((specFlags pts m).map Prod.fst) :=
      List.Sublist.map Prod.fst (List.filter_sublist _)
    rwa [hmap] at h1
  · intro pre qb post h
    have := specFlags_flagSpec pts m pre qb post h
    simpa [isClose, Bool.and_eq_true, decide_eq_true_eq] using this

/-! ### C9 and C10: pairwise separation of the deduplicated output -/

lemma dedupeGo_pairwise (m : ℚ) :
    ∀ (pts kept : List Cand),
      kept.Pairwise (fun a b => isClose a b m = false) →
      (dedupeGo m kept pts).Pairwise (fun a b => isClose a b m = false) := by
  intro pts
  induction pts with
  | nil => intro kept h; exact h
  | cons p rest ih =>
      intro kept h
      rw [dedupeGo]
      cases hany : kept.any (fun q => isClose q p m) with
      | true => simpa [hany] using ih kept h
      | false =>
          simp only [hany, Bool.false_eq_true, if_false]
          refine ih (kept ++ [p]) ?_
          rw [List.pairwise_append]
          refine ⟨h, List.pairwise_singleton _ _, ?_⟩
          intro a ha b hb
          simp only [List.mem_singleton] at hb
          subst hb
          simpa using (List.any_eq_false.mp hany) a ha

lemma dedupe_pairwise (pts : List Cand) (m : ℚ) :
    (dedupe pts m).Pairwise fun a b => isClose a b m = false :=
  dedupeGo_pairwise m pts [] (List.Pairwise.nil)

lemma dedupeGo_fixpoint (m : ℚ) :
    ∀ (l kept : List Cand),
      (kept ++ l).Pairwise (fun a b => isClose a b m = false) →
      dedupeGo m kept l = kept ++ l := by
  intro l
  induction l with
  | nil => intro kept _; simp [dedupeGo]
  | cons p rest ih =>
      intro kept h
      have hany : kept.any (fun q => isClose q p m) = false := by
        rw [List.any_eq_false]
        intro q hq
        have := (List.pairwise_append.mp h).2.2 q hq p (by simp)
        simpa using this
      rw [dedupeGo]
      simp only [hany, Bool.false_eq_true, if_false]
      have h2 : ((kept ++ [p]) ++ rest).Pairwise (fun a b => isClose a b m = false) := by
        simpa using h
      rw [ih (kept ++ [p]) h2]
      simp

/-- The conversion from the boolean non-closeness test to the distance bound:
`hypot ≥ m` unless `m ≤ 0` (in which case `hypot ≥ m` anyway). -/
lemma isClose_false_dist (a b : Cand) (m : ℚ) (h : isClose a b m = false) :
    0 < m → m ^ 2 ≤ dist2 a b := by
  intro hm
  simp only [isClose, Bool.and_eq_false_iff, decide_eq_false_iff_not, not_lt] at h
  rcases h with h | h
  · exact absurd hm (by simpa using h)
  · simpa using h

lemma mem_mkNodesGo :
    ∀ (pts : List Cand) (i : ℕ) (a : Node),
      a ∈ mkNodesGo i pts → ∃ p ∈ pts, a.x = p.x ∧ a.y = p.y := by
  intro pts
  induction pts with
  | nil => intro i a h; simp [mkNodesGo] at h
  | cons p rest ih =>
      intro i a h
      rw [mkNodesGo] at h
      rcases List.mem_cons.mp h with h | h
      · exact ⟨p, by simp, by simp [h]⟩
      · obtain ⟨q, hq, hxy⟩ := ih (i + 1) a h
        exact ⟨q, List.mem_cons_of_mem _ hq, hxy⟩

lemma mkNodesGo_pairwise (m : ℚ) :
    ∀ (pts : List Cand) (i : ℕ),
      pts.Pairwise (fun a b => 0 < m → m ^ 2 ≤ dist2 a b) →
      (mkNodesGo i pts).Pairwise (fun a b => 0 < m → m ^ 2 ≤ ndist2 a b) := by
  intro pts
  induction pts with
  | nil => intro i _; exact List.Pairwise.nil
  | cons p rest ih =>
      intro i h
      rw [List.pairwise_cons] at h
      rw [mkNodesGo]
      refine List.Pairwise.cons ?_ (ih (i + 1) h.2)
      intro b hb hm
      obtain ⟨q, hq, hx, hy⟩ := mem_mkNodesGo rest (i + 1) b hb
      have := h.1 q hq hm
      simpa [ndist2, dist2, hx, hy] using this

/-- C9: in a built graph every pair of distinct nodes is at Euclidean
distance at least `min_node_distance` (stated on squared distances:
`m² ≤ ndist2` whenever `0 < m`; for `m ≤ 0` the distance bound is vacuous
since distances are nonnegative).  The deduplicator enforces this for every
pair, so in particular the claim's labelled-nodes exception never has to
fire. -/
theorem C9_dedup_distance_invariant (texts : List (String × ℚ × ℚ))
    (w h spacing m margin : ℚ) (region : Option (ℚ → ℚ → Bool)) :
    (mkNodes (remove_points_in_obstacles
        (build_nodes texts w h spacing m margin) region)).Pairwise
      fun a b => 0 < m → m ^ 2 ≤ ndist2 a b := by
  have h1 : (build_nodes texts w h spacing m margin).Pairwise
      (fun a b => isClose a b m = false) := dedupe_pairwise _ m
  have h2 : (remove_points_in_obstacles
      (build_nodes texts w h spacing m margin) region).Pairwise
      (fun a b => isClose a b m = false) := by
    cases region with
    | none => exact h1
    | some contains => exact List.Pairwise.sublist (List.filter_sublist _) h1
  exact mkNodesGo_pairwise m _ 1 (h2.imp fun {a b} hab => isClose_false_dist a b m hab)

/-- C10: the deduplicator is idempotent — its output is pairwise separated,
so a second pass rejects nothing. -/
theorem C10_dedupe_idempotent (pts : List Cand) (m : ℚ) :
    dedupe (dedupe pts m) m = dedupe pts m := by
  have := dedupeGo_fixpoint m (dedupe pts m) []
  simp only [List.nil_append] at this
  exact this (dedupe_pairwise pts m)

/-! ### C8: grid sampling on a degenerate canvas -/

/-- Loop-count characterisation of `gridAxis`: iteration `i` happens iff its
value is still below the bound — exactly the `while v < bound` condition. -/
lemma lt_axisCount_iff (lo bound step : ℚ) (hs : 0 < step) (i : ℕ) :
    i < axisCount lo bound step ↔ lo + (i : ℚ) * step < bound := by
  unfold axisCount
  rw [Int.lt_toNat, Int.lt_ceil]
  push_cast
  rw [lt_div_iff₀ hs]
  constructor <;> intro <;> linarith

/-- Membership characterisation of `gridAxis`, the exact semantics of the
emitting while loop for a positive step. -/
lemma mem_gridAxis_iff (lo bound step : ℚ) (hs : 0 < step) (v : ℚ) :
    v ∈ gridAxis lo bound step ↔
      ∃ i : ℕ, v = lo + (i : ℚ) * step ∧ lo + (i : ℚ) * step < bound := by
  unfold gridAxis
  constructor
  · intro hv
    obtain ⟨i, hi, hfi⟩ := List.mem_map.mp hv
    exact ⟨i, hfi.symm,
      (lt_axisCount_iff lo bound step hs i).mp (List.mem_range.mp hi)⟩
  · rintro ⟨i, hv, hlt⟩
    exact List.mem_map.mpr
      ⟨i, List.mem_range.mpr ((lt_axisCount_iff lo bound step hs i).mpr hlt), hv.symm⟩

lemma gridAxis_nil (lo bound step : ℚ) (hs : 0 < step) (h : bound ≤ lo) :
    gridAxis lo bound step = [] := by
  unfold gridAxis
  have hc : axisCount lo bound step = 0 := by
    by_contra hne
    have h0 : 0 < axisCount lo bound step := Nat.pos_of_ne_zero hne
    have := (lt_axisCount_iff lo bound step hs 0).mp h0
    simp at this
    linarith
  rw [hc]
  rfl

/-- C8 (amended): if `width - 2*margin ≤ -1e-9` or `height - 2*margin ≤ -1e-9`
— strictly below the loop's `1e-9` slack, not merely `≤ 0` — the grid sampler
contributes no candidates, and the whole pipeline (no labeled points) yields
zero nodes and zero edges. -/
theorem C8_empty_canvas (w h spacing m margin : ℚ)
    (region : Option (ℚ → ℚ → Bool))
    (obstacleUnion : Option ((ℚ × ℚ) → (ℚ × ℚ) → Bool)) (k : ℤ)
    (hs : 0 < spacing)
    (hcond : w - 2 * margin ≤ -eps ∨ h - 2 * margin ≤ -eps) :
    sample_grid w h spacing margin = [] ∧
    build_nodes [] w h spacing m margin = [] ∧
    build_edges_from_nodes
      (mkNodes (remove_points_in_obstacles
        (build_nodes [] w h spacing m margin) region)) k = [] ∧
    prune_edges_by_obstacles
      (mkNodes (remove_points_in_obstacles
        (build_nodes [] w h spacing m margin) region))
      (build_edges_from_nodes
        (mkNodes (remove_points_in_obstacles
          (build_nodes [] w h spacing m margin) region)) k)
      obstacleUnion = [] := by
  have hgrid : sample_grid w h spacing margin = [] := by
    rcases hcond with hc | hc
    · have hx : gridAxis margin (w - margin + eps) spacing = [] :=
        gridAxis_nil _ _ _ hs (by linarith)
      simp [sample_grid, hx]
    · have hy : gridAxis margin (h - margin + eps) spacing = [] :=
        gridAxis_nil _ _ _ hs (by linarith)
      simp [sample_grid, hy]
  have hnodes : build_nodes [] w h spacing m margin = [] := by
    simp [build_nodes, hgrid, dedupe, dedupeGo]
  have hrem : remove_points_in_obstacles
      (build_nodes [] w h spacing m margin) region = [] := by
    cases region <;> simp [remove_points_in_obstacles, hnodes]
  have hmk : mkNodes (remove_points_in_obstacles
      (build_nodes [] w h spacing m margin) region) = [] := by
    rw [hrem]; rfl
  have hedges : build_edges_from_nodes
      (mkNodes (remove_points_in_obstacles
        (build_nodes [] w h spacing m margin) region)) k = [] := by
    rw [hmk]; rfl
  refine ⟨hgrid, hnodes, hedges, ?_⟩
  rw [hedges]
  cases obstacleUnion <;> simp [prune_edges_by_obstacles]

/-- C8 witness: a concrete 2×2 canvas with margin 4 (so `w - 2*margin = -6`)
produces an entirely empty pipeline. -/
theorem C8_empty_canvas_witness :
    sample_grid 2 2 16 4 = [] ∧
    build_nodes [] 2 2 16 6 4 = [] ∧
    build_edges_from_nodes
      (mkNodes (remove_points_in_obstacles (build_nodes [] 2 2 16 6 4) none)) 6 = [] ∧
    prune_edges_by_obstacles
      (mkNodes (remove_points_in_obstacles (build_nodes [] 2 2 16 6 4) none))
      (build_edges_from_nodes
        (mkNodes (remove_points_in_obstacles (build_nodes [] 2 2 16 6 4) none)) 6)
      none = [] :=
  C8_empty_canvas 2 2 16 6 4 none none 6 (by norm_num)
    (Or.inl (by norm_num [eps]))

/-- C8 counterexample: with `width - 2*margin = 0` (claimed to give an empty
grid) the sampler emits the boundary point `(margin, margin)`, because the
loop bound carries a `+ 1e-9` slack. -/
theorem C8_counterexample :
    (8 : ℚ) - 2 * 4 ≤ 0 ∧ sample_grid 8 8 16 4 = [(4, 4)] := by
  constructor
  · norm_num
  · have hb : (8 : ℚ) - 4 + eps = 4 + eps := by norm_num
    have hax : axisCount 4 (4 + eps) 16 = 1 := by
      unfold axisCount eps
      have h1 : ((4 : ℚ) + 1 / 1000000000 - 4) / 16 = 1 / 16000000000 := by norm_num
      rw [h1]
      have h2 : (⌈(1 : ℚ) / 16000000000⌉ : ℤ) = 1 := by
        rw [Int.ceil_eq_iff]
        constructor <;> norm_num
      rw [h2]
      rfl
    unfold sample_grid
    rw [hb]
    unfold gridAxis
    rw [hax]
    simp [List.range_succ]

/-! ### C6: nearest-node snapping -/

/-- Squared distance from query point `(x, y)` to a node. -/
def qd2 (x y : ℚ) (n : Node) : ℚ := (n.x - x) ^ 2 + (n.y - y) ^ 2

lemma nnGo_spec (x y : ℚ) :
    ∀ (l : List Node) (best : Option Node) (bd2 : ℚ),
      (∀ b, best = some b → bd2 = qd2 x y b) →
      (∀ b, best = some b → ∀ n ∈ l, b.id < n.id) →
      l.Pairwise (fun a b => a.id < b.id) →
      ((nnGo x y l (best, bd2)).2 ≤ bd2 ∧
        ∀ n ∈ l, (nnGo x y l (best, bd2)).2 ≤ qd2 x y n) ∧
      ((nnGo x y l (best, bd2)) = (best, bd2) ∨
        ∃ m ∈ l, (nnGo x y l (best, bd2)).1 = some m ∧
          (nnGo x y l (best, bd2)).2 = qd2 x y m ∧ qd2 x y m < bd2) ∧
      (∀ b, (nnGo x y l (best, bd2)).1 = some b →
        ∀ n ∈ l, qd2 x y n = (nnGo x y l (best, bd2)).2 → b.id ≤ n.id) := by
  intro l
  induction l with
  | nil =>
      intro best bd2 hcons hid hpw
      refine ⟨⟨le_refl _, by simp⟩, Or.inl rfl, ?_⟩
      intro b hb n hn
      simp at hn
  | cons n rest ih =>
      intro best bd2 hcons hid hpw
      have hstep : nnGo x y (n :: rest) (best, bd2) =
          if qd2 x y n < bd2 then nnGo x y rest (some n, qd2 x y n)
          else nnGo x y rest (best, bd2) := rfl
      by_cases hlt : qd2 x y n < bd2
      · rw [hstep, if_pos hlt]
        have hcons2 : ∀ b, (some n : Option Node) = some b → qd2 x y n = qd2 x y b := by
          intro b hb; cases hb; rfl
        have hid2 : ∀ b, (some n : Option Node) = some b → ∀ p ∈ rest, b.id < p.id := by
          intro b hb p hp; cases hb; exact (List.pairwise_cons.mp hpw).1 p hp
        obtain ⟨⟨hle, hall⟩, hdisj, htie⟩ :=
          ih (some n) (qd2 x y n) hcons2 hid2 (List.pairwise_cons.mp hpw).2
        refine ⟨⟨le_trans hle hlt.le, ?_⟩, ?_, ?_⟩
        · intro p hp
          rcases List.mem_cons.mp hp with rfl | hp
          · exact hle
          · exact hall p hp
        · rcases hdisj with heq | ⟨m, hm, h1, h2, h3⟩
          · exact Or.inr ⟨n, by simp, by rw [heq], by rw [heq], hlt⟩
          · exact Or.inr ⟨m, List.mem_cons_of_mem _ hm, h1, h2, h3.trans hlt⟩
        · intro b hb p hp hdp
          rcases List.mem_cons.mp hp with rfl | hp
          · rcases hdisj with heq | ⟨m, hm, h1, h2, h3⟩
            · rw [heq] at hb
              cases hb
              exact le_refl _
            · exfalso
              have hpm := hdp.trans h2
              linarith
          · exact htie b hb p hp hdp
      · rw [hstep, if_neg hlt]
        have hid2 : ∀ b, best = some b → ∀ p ∈ rest, b.id < p.id := by
          intro b hb p hp
          exact hid b hb p (List.mem_cons_of_mem _ hp)
        obtain ⟨⟨hle, hall⟩, hdisj, htie⟩ :=
          ih best bd2 hcons hid2 (List.pairwise_cons.mp hpw).2
        have hnge : bd2 ≤ qd2 x y n := not_lt.mp hlt
        refine ⟨⟨hle, ?_⟩, ?_, ?_⟩
        · intro p hp
          rcases List.mem_cons.mp hp with rfl | hp
          · exact le_trans hle hnge
          · exact hall p hp
        · rcases hdisj with heq | ⟨m, hm, h1, h2, h3⟩
          · exact Or.inl heq
          · exact Or.inr ⟨m, List.mem_cons_of_mem _ hm, h1, h2, h3⟩
        · intro b hb p hp hdp
          rcases List.mem_cons.mp hp with rfl | hp
          · rcases hdisj with heq | ⟨m, hm, h1, h2, h3⟩
            · rw [heq] at hb
              exact le_of_lt (hid b hb p (by simp))
            · exfalso
              have hpm := hdp.trans h2
              linarith
          · exact htie b hb p hp hdp

/-- C6 (amended): `nearest_node` returns `none` on the empty node list (the
EmptyGraph outcome), and — provided some node is strictly within the `1e9`
initial sentinel distance — returns the node minimising Euclidean distance to
`(x, y)`, with exact-distance ties resolved to the lowest node id (node ids
are strictly increasing along the built node list). -/
theorem C6_nearest_node (nodes : List Node) (x y : ℚ)
    (hpw : nodes.Pairwise fun a b => a.id < b.id)
    (hin : ∃ n ∈ nodes, qd2 x y n < bigD2) :
    nearest_node ([] : List Node) x y = none ∧
    ∃ m ∈ nodes, nearest_node nodes x y = some m ∧
      (∀ n ∈ nodes, qd2 x y m ≤ qd2 x y n) ∧
      (∀ n ∈ nodes, qd2 x y n = qd2 x y m → m.id ≤ n.id) := by
  refine ⟨rfl, ?_⟩
  obtain ⟨⟨hle, hall⟩, hdisj, htie⟩ :=
    nnGo_spec x y nodes none bigD2 (by intro b hb; cases hb)
      (by intro b hb; cases hb) hpw
  obtain ⟨n0, hn0, hn0lt⟩ := hin
  rcases hdisj with heq | ⟨m, hm, h1, h2, h3⟩
  · have h2 : (nnGo x y nodes (none, bigD2)).2 ≤ qd2 x y n0 := hall n0 hn0
    rw [heq] at h2
    exact absurd (lt_of_le_of_lt h2 hn0lt) (lt_irrefl _)
  · refine ⟨m, hm, h1, ?_, ?_⟩
    · intro n hn
      have := hall n hn
      rwa [h2] at this
    · intro n hn hd
      refine htie m h1 n hn ?_
      rw [hd, h2]

/-- C6 witness: two nodes with ids 1 and 2 both at distance 5 from the query
point; the lower id wins the tie. -/
theorem C6_nearest_node_witness :
    nearest_node ([] : List Node) 0 0 = none ∧
    ∃ m ∈ [(⟨1, 3, 4, none⟩ : Node), ⟨2, 4, 3, none⟩],
      nearest_node [(⟨1, 3, 4, none⟩ : Node), ⟨2, 4, 3, none⟩] 0 0 = some m ∧
      (∀ n ∈ [(⟨1, 3, 4, none⟩ : Node), ⟨2, 4, 3, none⟩], qd2 0 0 m ≤ qd2 0 0 n) ∧
      (∀ n ∈ [(⟨1, 3, 4, none⟩ : Node), ⟨2, 4, 3, none⟩],
        qd2 0 0 n = qd2 0 0 m → m.id ≤ n.id) :=
  C6_nearest_node [⟨1, 3, 4, none⟩, ⟨2, 4, 3, none⟩] 0 0 (by decide)
    ⟨⟨1, 3, 4, none⟩, by simp, by norm_num [qd2, bigD2]⟩

/-- C6 counterexample: a nonempty graph whose single node lies farther than
the `1e9` sentinel from the query point; `nearest_node` returns no node even
though the graph is nonempty, so the claim as stated fails. -/
theorem C6_counterexample :
    ([(⟨1, 2000000000, 0, none⟩ : Node)] : List Node) ≠ [] ∧
    nearest_node [(⟨1, 2000000000, 0, none⟩ : Node)] 0 0 = none := by
  constructor
  · simp
  · have hstep : nnGo 0 0 [(⟨1, 2000000000, 0, none⟩ : Node)] (none, bigD2) =
        if qd2 0 0 ⟨1, 2000000000, 0, none⟩ < bigD2 then
          nnGo 0 0 [] (some ⟨1, 2000000000, 0, none⟩, qd2 0 0 ⟨1, 2000000000, 0, none⟩)
        else nnGo 0 0 [] (none, bigD2) := rfl
    unfold nearest_node
    rw [hstep, if_neg (by norm_num [qd2, bigD2])]
    rfl

/-! ### C7: there is no configuration validation -/

lemma dlistFor_eq_aux (c : ℚ × ℚ) (i : ℕ) (l : List (ℕ × (ℚ × ℚ))) :
    (l.filterMap fun ja => if ja.1 = i then none else some (qdist2 c ja.2, ja.1)) =
      (l.filter fun ja => decide ¬(ja.1 = i)).map
        fun ja => (qdist2 c ja.2, ja.1) := by
  induction l with
  | nil => rfl
  | cons a t ih =>
      by_cases h : a.1 = i <;> simp [List.filterMap_cons, List.filter_cons, h, ih]

lemma dlistFor_eq (coords : List (ℚ × ℚ)) (i : ℕ) :
    dlistFor coords i =
      (coords.enum.filter fun ja => decide ¬(ja.1 = i)).map
        fun ja => (qdist2 (coords.getD i (0, 0)) ja.2, ja.1) :=
  dlistFor_eq_aux (coords.getD i (0, 0)) i coords.enum

lemma countP_enum_eq (coords : List (ℚ × ℚ)) (i : ℕ) (hi : i < coords.length) :
    coords.enum.countP (fun ja => decide (ja.1 = i)) = 1 := by
  have h1 : coords.enum.countP (fun ja => decide (ja.1 = i)) =
      (coords.enum.map Prod.fst).countP (fun a => decide (a = i)) := by
    rw [List.countP_map]
    rfl
  rw [h1, List.enum_map_fst]
  have h2 : (List.range coords.length).countP (fun a => decide (a = i)) =
      (List.range coords.length).count i := by
    apply List.countP_congr
    intro a _
    by_cases h : a = i <;> simp [h]
  rw [h2]
  exact List.count_eq_one_of_mem (List.nodup_range _) (List.mem_range.mpr hi)

lemma length_dlistFor (coords : List (ℚ × ℚ)) (i : ℕ) (hi : i < coords.length) :
    (dlistFor coords i).length = coords.length - 1 := by
  rw [dlistFor_eq, List.length_map, ← List.countP_eq_length_filter]
  have h0 := List.length_eq_countP_add_countP (fun ja => decide (ja.1 = i)) coords.enum
  rw [countP_enum_eq coords i hi] at h0
  have hb : coords.enum.countP
      (fun a => decide ¬((fun ja => decide (ja.1 = i)) a = true)) =
      coords.enum.countP (fun ja => decide ¬(ja.1 = i)) := by
    apply List.countP_congr
    intro a _
    simp
  rw [hb] at h0
  have hlen : coords.enum.length = coords.length := List.enum_length
  omega

lemma length_pyTake_neg_one {α : Type} (l : List α) :
    (pyTake (-1) l).length = l.length - 1 := by
  rw [pyTake, if_pos (by norm_num)]
  rw [List.length_take]
  have h : ((l.length : ℤ) + (-1)).toNat = l.length - 1 := by omega
  rw [h]
  omega

/-- No configuration check exists in the source: with `k_neighbors = -1` the
edge builder still produces a (nonempty, for three or more nodes) graph —
Python's slice `dlist[:-1]` silently connects each node to all but its
farthest candidate neighbour. -/
lemma build_edges_neg_one_ne_nil (nodes : List Node) (h3 : 3 ≤ nodes.length) :
    build_edges_from_nodes nodes (-1) ≠ [] := by
  intro hnil
  unfold build_edges_from_nodes at hnil
  rw [List.dedup_eq_nil] at hnil
  have hclen : (nodes.map fun n => (n.x, n.y)).length = nodes.length := by simp
  have hlen : (pyTake (-1)
      ((dlistFor (nodes.map fun n => (n.x, n.y)) 0).insertionSort lexLe)).length =
      nodes.length - 2 := by
    rw [length_pyTake_neg_one, (List.perm_insertionSort lexLe _).length_eq,
      length_dlistFor _ 0 (by omega), hclen]
    omega
  have hne : pyTake (-1)
      ((dlistFor (nodes.map fun n => (n.x, n.y)) 0).insertionSort lexLe) ≠ [] := by
    intro h0
    rw [h0] at hlen
    simp at hlen
    omega
  obtain ⟨dj, hdj⟩ := List.exists_mem_of_ne_nil _ hne
  have hmem : normPair (nodes.getD 0 default).id (nodes.getD dj.2 default).id ∈
      (List.range nodes.length).flatMap fun i =>
        (pyTake (-1)
          ((dlistFor (nodes.map fun n => (n.x, n.y)) i).insertionSort lexLe)).map
          fun dj => normPair (nodes.getD i default).id (nodes.getD dj.2 default).id := by
    exact List.mem_flatMap.mpr
      ⟨0, List.mem_range.mpr (by omega), List.mem_map.mpr ⟨dj, hdj, rfl⟩⟩
  rw [hnil] at hmem
  simp at hmem

/-- C7 (amended): an invalid configuration is *not* rejected — there is no
`InvalidConfig` outcome anywhere in the source; with `k_neighbors = -1` the
build proceeds and produces a nonempty edge set whenever there are at least
three nodes. -/
theorem C7_no_config_validation (nodes : List Node) (h3 : 3 ≤ nodes.length) :
    build_edges_from_nodes nodes (-1) ≠ [] :=
  build_edges_neg_one_ne_nil nodes h3

/-- C7 witness: four collinear nodes, `k = -1`, nonempty edge set. -/
theorem C7_no_config_validation_witness :
    build_edges_from_nodes
      [⟨1, 0, 0, none⟩, ⟨2, 0, 1, none⟩, ⟨3, 0, 2, none⟩, ⟨4, 0, 3, none⟩]
      (-1) ≠ [] :=
  C7_no_config_validation _ (by simp)

/-- C7 counterexample: with the invalid configuration `k_neighbors = -1` and
three concrete nodes the build is not rejected — a nonempty graph is
produced, contradicting "rejected eagerly with InvalidConfig, no partial
graph produced". -/
theorem C7_counterexample :
    build_edges_from_nodes
      [⟨1, 0, 0, none⟩, ⟨2, 1, 0, none⟩, ⟨3, 2, 0, none⟩] (-1) ≠ [] :=
  build_edges_neg_one_ne_nil _ (by simp)

/-- C2 witness: three collinear candidates at x = 0, 1, 10 with
`min_node_distance = 6`; the middle one is rejected because it is within 6 of
the first (accepted) candidate. -/
theorem C2_deduplicator_witness :
    ((⟨1, 0, none⟩ : Cand), false).2 = false ↔
      ∃ qc ∈ [((⟨0, 0, none⟩ : Cand), true)], (qc : Cand × Bool).2 = true ∧
        (0 : ℚ) < 6 ∧ dist2 qc.1 ⟨1, 0, none⟩ < 6 ^ 2 :=
  (C2_deduplicator [⟨0, 0, none⟩, ⟨1, 0, none⟩, ⟨10, 0, none⟩] 6).2.2.2
    [(⟨0, 0, none⟩, true)] (⟨1, 0, none⟩, false) [(⟨10, 0, none⟩, true)]
    (by norm_num [specFlags, flagGo, isClose, dist2])

/-! ### C3: the K-nearest-neighbour proximity graph -/

lemma lexLe_antisymm {p q : ℚ × ℕ} (h1 : lexLe p q) (h2 : lexLe q p) : p = q := by
  rcases h1 with h1 | ⟨h1, h1b⟩ <;> rcases h2 with h2 | ⟨h2, h2b⟩
  · exact absurd (h1.trans h2) (lt_irrefl _)
  · exact absurd h1 (by rw [h2]; exact lt_irrefl _)
  · exact absurd h2 (by rw [h1]; exact lt_irrefl _)
  · exact Prod.ext h1 (Nat.le_antisymm h1b h2b)

lemma lexLt_iff (p q : ℚ × ℕ) : lexLt p q ↔ lexLe p q ∧ p ≠ q := by
  constructor
  · rintro (h | ⟨h, hb⟩)
    · exact ⟨Or.inl h, by intro he; rw [he] at h; exact absurd h (lt_irrefl _)⟩
    · refine ⟨Or.inr ⟨h, hb.le⟩, ?_⟩
      intro he
      rw [he] at hb
      exact absurd hb (lt_irrefl _)
  · rintro ⟨h | ⟨h, hb⟩, hne⟩
    · exact Or.inl h
    · refine Or.inr ⟨h, lt_of_le_of_ne hb ?_⟩
      intro he
      exact hne (Prod.ext h he)

lemma not_lexLt_self (p : ℚ × ℕ) : ¬lexLt p p := by
  rintro (h | ⟨h, hb⟩)
  · exact absurd h (lt_irrefl _)
  · exact absurd hb (lt_irrefl _)

/-- The first `k` entries of a lexicographically sorted duplicate-free list
are exactly its members preceded by fewer than `k` strictly smaller entries. -/
lemma mem_take_sorted_lex :
    ∀ (l : List (ℚ × ℕ)) (k : ℕ) (x : ℚ × ℕ),
      l.Sorted lexLe → l.Nodup →
      (x ∈ l.take k ↔ x ∈ l ∧ l.countP (fun y => decide (lexLt y x)) < k) := by
  intro l
  induction l with
  | nil => simp
  | cons a t ih =>
      intro k x hs hn
      obtain ⟨hsa, hst⟩ := List.sorted_cons.mp hs
      obtain ⟨hna, hnt⟩ := List.pairwise_cons.mp hn
      cases k with
      | zero => simp
      | succ k =>
          rw [List.take_succ_cons]
          by_cases hx : x = a
          · subst hx
            have h0 : (x :: t).countP (fun y => decide (lexLt y x)) = 0 := by
              rw [List.countP_eq_zero]
              intro y hy
              simp only [decide_eq_true_eq]
              rcases List.mem_cons.mp hy with rfl | hy
              · exact not_lexLt_self y
              · intro hlt
                obtain ⟨hle, hne⟩ := (lexLt_iff y x).mp hlt
                exact hne (lexLe_antisymm hle (hsa y hy))
            simp [h0]
          · have hxmem : x ∈ a :: List.take k t ↔ x ∈ List.take k t := by
              simp [List.mem_cons, hx]
            rw [hxmem, ih k x hst hnt]
            by_cases hxt : x ∈ t
            · have hcnt : (a :: t).countP (fun y => decide (lexLt y x)) =
                  t.countP (fun y => decide (lexLt y x)) + 1 := by
                rw [List.countP_cons]
                have : lexLt a x := (lexLt_iff a x).mpr
                  ⟨hsa x hxt, fun he => hx (he.symm)⟩
                simp [this]
              rw [hcnt]
              simp only [List.mem_cons]
              constructor
              · rintro ⟨h1, h2⟩
                exact ⟨Or.inr h1, by omega⟩
              · rintro ⟨h1 | h1, h2⟩
                · exact absurd h1 hx
                · exact ⟨h1, by omega⟩
            · constructor
              · rintro ⟨h1, _⟩
                exact absurd h1 hxt
              · rintro ⟨h1, _⟩
                rcases List.mem_cons.mp h1 with rfl | h1
                · exact absurd rfl hx
                · exact absurd h1 hxt

lemma flatMap_eq_nil_of {α β : Type} (l : List α) (f : α → List β)
    (h : ∀ x ∈ l, f x = []) : l.flatMap f = [] := by
  induction l with
  | nil => rfl
  | cons a t ih => simp_all [List.flatMap_cons]

lemma flatMap_congr_of {α β : Type} (l : List α) (f g : α → List β)
    (h : ∀ x ∈ l, f x = g x) : l.flatMap f = l.flatMap g := by
  induction l with
  | nil => rfl
  | cons a t ih => simp_all [List.flatMap_cons]

lemma nodup_snd_dlistFor (coords : List (ℚ × ℚ)) (i : ℕ) :
    ((dlistFor coords i).map Prod.snd).Nodup := by
  rw [dlistFor_eq, List.map_map]
  have hf : (Prod.snd ∘ fun ja : ℕ × (ℚ × ℚ) =>
      ((qdist2 (coords.getD i (0, 0)) ja.2 : ℚ), ja.1)) = fun ja => ja.1 := rfl
  rw [hf]
  have hsub : ((coords.enum.filter fun ja => decide ¬(ja.1 = i)).map
      fun ja => ja.1).Sublist (coords.enum.map Prod.fst) :=
    List.Sublist.map _ (List.filter_sublist _)
  refine List.Nodup.sublist hsub ?_
  rw [List.enum_map_fst]
  exact List.nodup_range _

lemma nodup_dlistFor (coords : List (ℚ × ℚ)) (i : ℕ) :
    (dlistFor coords i).Nodup :=
  List.Nodup.of_map Prod.snd (nodup_snd_dlistFor coords i)

lemma mem_dlistFor (coords : List (ℚ × ℚ)) (i : ℕ) (e : ℚ × ℕ) :
    e ∈ dlistFor coords i ↔
      e.2 < coords.length ∧ e.2 ≠ i ∧
        e.1 = qdist2 (coords.getD i (0, 0)) (coords.getD e.2 (0, 0)) := by
  obtain ⟨d, j⟩ := e
  rw [dlistFor_eq]
  simp only [List.mem_map, List.mem_filter, decide_eq_true_eq]
  constructor
  · rintro ⟨ja, ⟨hja, hne⟩, heq⟩
    obtain ⟨hlt, hval⟩ := List.mem_enum hja
    have h1 : ja.1 = j := congrArg Prod.snd heq
    have h2 : qdist2 (coords.getD i (0, 0)) ja.2 = d := congrArg Prod.fst heq
    subst h1
    refine ⟨hlt, hne, ?_⟩
    rw [← h2, hval, List.getD_eq_getElem coords (0, 0) hlt]
  · rintro ⟨h1, h2, h3⟩
    refine ⟨(j, coords.getD j (0, 0)), ⟨?_, h2⟩, ?_⟩
    · have hj2 : j < coords.enum.length := by rwa [List.enum_length]
      rw [List.mem_iff_getElem]
      refine ⟨j, hj2, ?_⟩
      rw [List.getElem_enum coords j hj2, List.getD_eq_getElem coords (0, 0) h1]
    · simp [h3]

/-- Membership in the truncated sorted neighbour list, characterised by the
closest-first rank. -/
lemma mem_pyTake_sorted (coords : List (ℚ × ℚ)) (i k : ℕ) (dj : ℚ × ℕ) :
    dj ∈ pyTake (k : ℤ) ((dlistFor coords i).insertionSort lexLe) ↔
      dj ∈ dlistFor coords i ∧ knnRank coords i dj.2 < k := by
  have hpt : pyTake (k : ℤ) ((dlistFor coords i).insertionSort lexLe) =
      ((dlistFor coords i).insertionSort lexLe).take k := by
    rw [pyTake, if_neg (by omega), Int.toNat_natCast]
  rw [hpt]
  have hperm := List.perm_insertionSort lexLe (dlistFor coords i)
  have hsorted := List.sorted_insertionSort lexLe (dlistFor coords i)
  have hnodup : ((dlistFor coords i).insertionSort lexLe).Nodup :=
    hperm.nodup_iff.mpr (nodup_dlistFor coords i)
  rw [mem_take_sorted_lex _ k dj hsorted hnodup, hperm.mem_iff,
    hperm.countP_eq]
  constructor
  · rintro ⟨h1, h2⟩
    refine ⟨h1, ?_⟩
    obtain ⟨hj, hne, hd⟩ := (mem_dlistFor coords i dj).mp h1
    unfold knnRank
    have : (qdist2 (coords.getD i (0, 0)) (coords.getD dj.2 (0, 0)), dj.2) = dj := by
      obtain ⟨d, j⟩ := dj
      simp only at hd
      simp [hd]
    rwa [this]
  · rintro ⟨h1, h2⟩
    refine ⟨h1, ?_⟩
    obtain ⟨hj, hne, hd⟩ := (mem_dlistFor coords i dj).mp h1
    unfold knnRank at h2
    have : (qdist2 (coords.getD i (0, 0)) (coords.getD dj.2 (0, 0)), dj.2) = dj := by
      obtain ⟨d, j⟩ := dj
      simp only at hd
      simp [hd]
    rwa [this] at h2

/-- C3: the proximity graph builder.  (1) For node counts `N ≤ 1` the edge
set is empty; (2) for `k ≥ N` the result equals the result for `k = N - 1`
(clamping); (3) an edge is produced iff it is `normPair` of some node `i` and
some node `j` among `i`'s `k` nearest other nodes (closest-first by Euclidean
distance with index tie-break) — in particular the edge is present even when
the relation is not mutual, and direction duplicates collapse via `normPair`. -/
theorem C3_proximity_graph (nodes : List Node) :
    (∀ k : ℤ, nodes.length ≤ 1 → build_edges_from_nodes nodes k = []) ∧
    (∀ k : ℤ, (nodes.length : ℤ) ≤ k →
      build_edges_from_nodes nodes k =
        build_edges_from_nodes nodes ((nodes.length : ℤ) - 1)) ∧
    (∀ (k : ℕ) (e : ℕ × ℕ),
      e ∈ build_edges_from_nodes nodes (k : ℤ) ↔
        ∃ i j, i < nodes.length ∧
          isKNearest (nodes.map fun n => (n.x, n.y)) i j k ∧
          e = normPair (nodes.getD i default).id (nodes.getD j default).id) := by
  refine ⟨?_, ?_, ?_⟩
  · intro k hN
    unfold build_edges_from_nodes
    rw [List.dedup_eq_nil]
    apply flatMap_eq_nil_of
    intro i hi
    have hi2 := List.mem_range.mp hi
    have hlen : (dlistFor (nodes.map fun n => (n.x, n.y)) i).length = 0 := by
      rw [length_dlistFor _ i (by simpa using hi2)]
      simp
      omega
    rw [List.length_eq_zero.mp hlen]
    have hpt : pyTake k (List.insertionSort lexLe ([] : List (ℚ × ℕ))) = [] := by
      rw [show List.insertionSort lexLe ([] : List (ℚ × ℕ)) = [] from rfl]
      unfold pyTake
      split <;> simp
    rw [hpt]
    rfl
  · intro k hk
    unfold build_edges_from_nodes
    refine congrArg List.dedup (flatMap_congr_of _ _ _ ?_)
    intro i hi
    have hi2 := List.mem_range.mp hi
    have hslen : ((dlistFor (nodes.map fun n => (n.x, n.y)) i).insertionSort
        lexLe).length = nodes.length - 1 := by
      rw [(List.perm_insertionSort lexLe _).length_eq,
        length_dlistFor _ i (by simpa using hi2)]
      simp
    have h1 : pyTake k ((dlistFor (nodes.map fun n => (n.x, n.y)) i).insertionSort
        lexLe) = (dlistFor (nodes.map fun n => (n.x, n.y)) i).insertionSort lexLe := by
      rw [pyTake, if_neg (by omega)]
      apply List.take_of_length_le
      rw [hslen]
      omega
    have h2 : pyTake ((nodes.length : ℤ) - 1)
        ((dlistFor (nodes.map fun n => (n.x, n.y)) i).insertionSort lexLe) =
        (dlistFor (nodes.map fun n => (n.x, n.y)) i).insertionSort lexLe := by
      rw [pyTake, if_neg (by omega)]
      apply List.take_of_length_le
      rw [hslen]
      omega
    rw [h1, h2]
  · intro k e
    unfold build_edges_from_nodes
    rw [List.mem_dedup, List.mem_flatMap]
    constructor
    · rintro ⟨i, hi, hmem⟩
      obtain ⟨dj, hdj, heq⟩ := List.mem_map.mp hmem
      obtain ⟨hdl, hrank⟩ := (mem_pyTake_sorted _ i k dj).mp hdj
      obtain ⟨hj, hne, hd⟩ := (mem_dlistFor _ i dj).mp hdl
      exact ⟨i, dj.2, List.mem_range.mp hi, ⟨hj, hne, hrank⟩, heq.symm⟩
    · rintro ⟨i, j, hi, ⟨hj, hne, hrank⟩, rfl⟩
      refine ⟨i, List.mem_range.mpr hi, List.mem_map.mpr
        ⟨(qdist2 ((nodes.map fun n => (n.x, n.y)).getD i (0, 0))
            ((nodes.map fun n => (n.x, n.y)).getD j (0, 0)), j), ?_, rfl⟩⟩
      exact (mem_pyTake_sorted _ i k _).mpr
        ⟨(mem_dlistFor _ i _).mpr ⟨hj, hne, rfl⟩, hrank⟩

/-- C3 witness: the empty-result and clamping clauses instantiated on
concrete one-node and three-node graphs. -/
theorem C3_proximity_graph_witness :
    build_edges_from_nodes [(⟨1, 0, 0, none⟩ : Node)] 5 = [] ∧
    build_edges_from_nodes
      [(⟨1, 0, 0, none⟩ : Node), ⟨2, 1, 0, none⟩, ⟨3, 2, 0, none⟩] 7 =
      build_edges_from_nodes
        [(⟨1, 0, 0, none⟩ : Node), ⟨2, 1, 0, none⟩, ⟨3, 2, 0, none⟩] 2 := by
  constructor
  · exact (C3_proximity_graph _).1 5 (by simp)
  · have h := (C3_proximity_graph
      [(⟨1, 0, 0, none⟩ : Node), ⟨2, 1, 0, none⟩, ⟨3, 2, 0, none⟩]).2.1 7 (by simp)
    simpa using h

/-! ### C4 and C5: the shortest-path query -/

lemma chainB_iff (edges : List (ℕ × ℕ)) :
    ∀ p, chainB edges p = true ↔ p.Chain' (fun a b => adjB edges a b = true) := by
  intro p
  induction p with
  | nil => simp [chainB]
  | cons a rest ih =>
      cases rest with
      | nil => simp [chainB]
      | cons b rest2 =>
          rw [show chainB edges (a :: b :: rest2) =
            (adjB edges a b && chainB edges (b :: rest2)) from rfl]
          rw [Bool.and_eq_true, List.chain'_cons, ih]

lemma pickMin_eq_none_iff (w : ℕ → ℕ → ℚ) (l : List (List ℕ)) :
    pickMin w l = none ↔ l = [] := by
  cases l with
  | nil => simp [pickMin]
  | cons p rest =>
      simp only [pickMin]
      cases h : pickMin w rest with
      | none => simp
      | some q => by_cases hlt : pathWeight w p < pathWeight w q <;> simp [hlt]

lemma pickMin_spec (w : ℕ → ℕ → ℚ) :
    ∀ (l : List (List ℕ)) (p : List ℕ), pickMin w l = some p →
      p ∈ l ∧ ∀ q ∈ l, pathWeight w p ≤ pathWeight w q := by
  intro l
  induction l with
  | nil => intro p h; simp [pickMin] at h
  | cons a rest ih =>
      intro p h
      simp only [pickMin] at h
      cases hr : pickMin w rest with
      | none =>
          rw [hr] at h
          have h2 : (some a : Option (List ℕ)) = some p := h
          have hpa : p = a := by simpa using h2.symm
          subst hpa
          have hrest : rest = [] := (pickMin_eq_none_iff w rest).mp hr
          subst hrest
          exact ⟨by simp, by simp⟩
      | some q =>
          rw [hr] at h
          have h2 : (if pathWeight w a < pathWeight w q then some a else some q) =
              some p := h
          obtain ⟨hqmem, hqmin⟩ := ih q hr
          by_cases hlt : pathWeight w a < pathWeight w q
          · rw [if_pos hlt] at h2
            have hpa : p = a := by simpa using h2.symm
            subst hpa
            refine ⟨by simp, ?_⟩
            intro r hr2
            rcases List.mem_cons.mp hr2 with rfl | hr2
            · exact le_refl _
            · exact hlt.le.trans (hqmin r hr2)
          · rw [if_neg hlt] at h2
            have hpq : p = q := by simpa using h2.symm
            subst hpq
            refine ⟨List.mem_cons_of_mem _ hqmem, ?_⟩
            intro r hr2
            rcases List.mem_cons.mp hr2 with rfl | hr2
            · exact not_lt.mp hlt
            · exact hqmin r hr2

lemma mem_subsB : ∀ (l r : List ℕ), r ∈ subsB l ↔ r.Sublist l := by
  intro l
  induction l with
  | nil =>
      intro r
      constructor
      · intro h
        rw [show subsB [] = [[]] from rfl, List.mem_singleton] at h
        rw [h]
      · intro h
        rw [List.sublist_nil.mp h]
        exact List.mem_singleton.mpr rfl
  | cons a l ih =>
      intro r
      rw [show subsB (a :: l) = subsB l ++ (subsB l).map (fun r => a :: r) from rfl]
      rw [List.mem_append, List.mem_map, List.sublist_cons_iff]
      constructor
      · rintro (h | ⟨q, hq, rfl⟩)
        · exact Or.inl ((ih r).mp h)
        · exact Or.inr ⟨q, rfl, (ih q).mp hq⟩
      · rintro (h | ⟨q, rfl, hq⟩)
        · exact Or.inl ((ih r).mpr h)
        · exact Or.inr ⟨q, (ih q).mpr hq, rfl⟩

lemma mem_insertAll (a : ℕ) :
    ∀ (l r : List ℕ), r ∈ insertAll a l ↔ ∃ l₁ l₂, l = l₁ ++ l₂ ∧ r = l₁ ++ a :: l₂ := by
  intro l
  induction l with
  | nil =>
      intro r
      rw [show insertAll a [] = [[a]] from rfl, List.mem_singleton]
      constructor
      · intro h
        exact ⟨[], [], rfl, by simp [h]⟩
      · rintro ⟨l₁, l₂, heq, rfl⟩
        have h1 : l₁ = [] := by
          cases l₁ with
          | nil => rfl
          | cons c l3 => simp at heq
        subst h1
        simp at heq
        subst heq
        rfl
  | cons b l ih =>
      intro r
      rw [show insertAll a (b :: l) = (a :: b :: l) :: (insertAll a l).map
        (fun r => b :: r) from rfl]
      rw [List.mem_cons, List.mem_map]
      constructor
      · rintro (rfl | ⟨q, hq, rfl⟩)
        · exact ⟨[], b :: l, rfl, rfl⟩
        · obtain ⟨l₁, l₂, rfl, rfl⟩ := (ih q).mp hq
          exact ⟨b :: l₁, l₂, rfl, rfl⟩
      · rintro ⟨l₁, l₂, heq, rfl⟩
        cases l₁ with
        | nil =>
            simp only [List.nil_append] at heq
            rw [heq]
            exact Or.inl rfl
        | cons c l₁2 =>
            simp only [List.cons_append, List.cons.injEq] at heq
            obtain ⟨rfl, heq2⟩ := heq
            refine Or.inr ⟨l₁2 ++ a :: l₂, (ih _).mpr ⟨l₁2, l₂, heq2, rfl⟩, rfl⟩

lemma mem_permsB : ∀ (l p : List ℕ), p ∈ permsB l ↔ p.Perm l := by
  intro l
  induction l with
  | nil =>
      intro p
      rw [show permsB [] = [[]] from rfl, List.mem_singleton, List.perm_nil]
  | cons a l ih =>
      intro p
      rw [show permsB (a :: l) = (permsB l).flatMap (insertAll a) from rfl,
        List.mem_flatMap]
      constructor
      · rintro ⟨q, hq, hp⟩
        obtain ⟨l₁, l₂, rfl, rfl⟩ := (mem_insertAll a q _).mp hp
        exact List.perm_middle.trans (((ih _).mp hq).cons a)
      · intro hp
        have ha : a ∈ p := hp.mem_iff.mpr (by simp)
        obtain ⟨p₁, p₂, rfl⟩ := List.append_of_mem ha
        have h2 : (p₁ ++ p₂).Perm l := by
          have h3 : (a :: (p₁ ++ p₂)).Perm (a :: l) :=
            (List.perm_middle.symm.trans hp)
          exact h3.cons_inv
        exact ⟨p₁ ++ p₂, (ih _).mpr h2, (mem_insertAll a _ _).mpr ⟨p₁, p₂, rfl, rfl⟩⟩

lemma mem_routeCands (ids : List ℕ) (edges : List (ℕ × ℕ)) (s t : ℕ) (p : List ℕ) :
    p ∈ routeCands ids edges s t ↔ p.Subperm ids ∧ ValidWalk ids edges s t p := by
  unfold routeCands
  rw [List.mem_filter, List.mem_flatMap]
  simp only [decide_eq_true_eq]
  constructor
  · rintro ⟨⟨l, hl, hp⟩, hv⟩
    exact ⟨⟨l, ((mem_permsB l p).mp hp).symm, (mem_subsB ids l).mp hl⟩, hv⟩
  · rintro ⟨⟨l, hlp, hls⟩, hv⟩
    exact ⟨⟨l, (mem_subsB ids l).mpr hls, (mem_permsB l p).mpr hlp.symm⟩, hv⟩

lemma dup_split :
    ∀ (l : List ℕ), ¬l.Nodup → ∃ l₁ x l₂ l₃, l = l₁ ++ x :: (l₂ ++ x :: l₃) := by
  intro l
  induction l with
  | nil => intro h; exact absurd List.nodup_nil h
  | cons a t ih =>
      intro h
      by_cases ha : a ∈ t
      · obtain ⟨l₂, l₃, rfl⟩ := List.append_of_mem ha
        exact ⟨[], a, l₂, l₃, rfl⟩
      · have ht : ¬t.Nodup := fun ht => h (List.nodup_cons.mpr ⟨ha, ht⟩)
        obtain ⟨l₁, x, l₂, l₃, rfl⟩ := ih ht
        exact ⟨a :: l₁, x, l₂, l₃, rfl⟩

lemma pathWeight_nonneg (w : ℕ → ℕ → ℚ) (hw : ∀ a b, 0 ≤ w a b) :
    ∀ l, 0 ≤ pathWeight w l := by
  intro l
  induction l with
  | nil => simp [pathWeight]
  | cons a rest ih =>
      cases rest with
      | nil => simp [pathWeight]
      | cons b rest2 =>
          show 0 ≤ w a b + pathWeight w (b :: rest2)
          exact add_nonneg (hw a b) ih

lemma pathWeight_append (w : ℕ → ℕ → ℚ) :
    ∀ (A : List ℕ) (x : ℕ) (B : List ℕ),
      pathWeight w (A ++ x :: B) = pathWeight w (A ++ [x]) + pathWeight w (x :: B) := by
  intro A
  induction A with
  | nil =>
      intro x B
      show pathWeight w (x :: B) = pathWeight w [x] + pathWeight w (x :: B)
      rw [show pathWeight w [x] = 0 from rfl]
      ring
  | cons a A2 ih =>
      intro x B
      cases A2 with
      | nil =>
          show w a x + pathWeight w (x :: B) = (w a x + 0) + pathWeight w (x :: B)
          ring
      | cons b A3 =>
          have h := ih x B
          simp only [List.cons_append] at h ⊢
          show w a b + pathWeight w (b :: (A3 ++ x :: B)) =
            w a b + pathWeight w (b :: (A3 ++ [x])) + pathWeight w (x :: B)
          rw [h]
          ring

lemma getLast?_append_cons {α : Type} (A : List α) (x : α) (B : List α) :
    (A ++ x :: B).getLast? = (x :: B).getLast? := by
  rw [List.getLast?_append]
  exact Option.or_of_isSome (by rw [List.getLast?_isSome]; simp)

lemma validWalk_shorten (ids : List ℕ) (edges : List (ℕ × ℕ)) (s t : ℕ)
    (l₁ : List ℕ) (x : ℕ) (l₂ l₃ : List ℕ)
    (h : ValidWalk ids edges s t (l₁ ++ x :: (l₂ ++ x :: l₃))) :
    ValidWalk ids edges s t (l₁ ++ x :: l₃) := by
  obtain ⟨hh, hl, hc0, hm⟩ := h
  have hc := (chainB_iff edges _).mp hc0
  refine ⟨?_, ?_, ?_, ?_⟩
  · cases l₁ with
    | nil => simpa using hh
    | cons a l => simpa using hh
  · rw [getLast?_append_cons] at hl ⊢
    rw [show x :: (l₂ ++ x :: l₃) = (x :: l₂) ++ x :: l₃ from by simp] at hl
    rw [getLast?_append_cons] at hl
    exact hl
  · rw [chainB_iff]
    obtain ⟨hc1, hc2, hlink⟩ := List.chain'_append.mp hc
    rw [show x :: (l₂ ++ x :: l₃) = (x :: l₂) ++ x :: l₃ from by simp] at hc2
    obtain ⟨_, hc22, _⟩ := List.chain'_append.mp hc2
    refine List.chain'_append.mpr ⟨hc1, hc22, ?_⟩
    intro a ha y hy
    apply hlink a ha y
    simpa using hy
  · intro z hz
    apply hm
    simp only [List.mem_append, List.mem_cons] at hz ⊢
    tauto

lemma pathWeight_shorten (w : ℕ → ℕ → ℚ) (hw : ∀ a b, 0 ≤ w a b)
    (l₁ : List ℕ) (x : ℕ) (l₂ l₃ : List ℕ) :
    pathWeight w (l₁ ++ x :: l₃) ≤ pathWeight w (l₁ ++ x :: (l₂ ++ x :: l₃)) := by
  rw [pathWeight_append w l₁ x l₃, pathWeight_append w l₁ x (l₂ ++ x :: l₃)]
  have h2 : pathWeight w (x :: (l₂ ++ x :: l₃)) =
      pathWeight w (x :: l₂ ++ [x]) + pathWeight w (x :: l₃) := by
    rw [show x :: (l₂ ++ x :: l₃) = (x :: l₂) ++ x :: l₃ from by simp]
    exact pathWeight_append w (x :: l₂) x l₃
  rw [h2]
  have := pathWeight_nonneg w hw (x :: l₂ ++ [x])
  linarith

lemma exists_route_le (ids : List ℕ) (edges : List (ℕ × ℕ)) (s t : ℕ)
    (w : ℕ → ℕ → ℚ) (hw : ∀ a b, 0 ≤ w a b) :
    ∀ (n : ℕ) (q : List ℕ), q.length ≤ n → ValidWalk ids edges s t q →
      ∃ p ∈ routeCands ids edges s t, pathWeight w p ≤ pathWeight w q := by
  intro n
  induction n with
  | zero =>
      intro q hlen hq
      have : q = [] := List.length_eq_zero.mp (by omega)
      rw [this] at hq
      exact absurd hq.1 (by simp)
  | succ n ih =>
      intro q hlen hq
      by_cases hnd : q.Nodup
      · refine ⟨q, ?_, le_refl _⟩
        refine (mem_routeCands ids edges s t q).mpr
          ⟨List.subperm_of_subset hnd (fun x hx => hq.2.2.2 x hx), hq⟩
      · obtain ⟨l₁, x, l₂, l₃, rfl⟩ := dup_split q hnd
        have hq2 := validWalk_shorten ids edges s t l₁ x l₂ l₃ hq
        have hlen2 : (l₁ ++ x :: l₃).length ≤ n := by
          simp only [List.length_append, List.length_cons] at hlen ⊢
          omega
        obtain ⟨p, hp, hple⟩ := ih (l₁ ++ x :: l₃) hlen2 hq2
        exact ⟨p, hp, hple.trans (pathWeight_shorten w hw l₁ x l₂ l₃)⟩

lemma adjB_right_mem (ids : List ℕ) (edges : List (ℕ × ℕ))
    (hwf : ∀ e ∈ edges, e.1 ∈ ids ∧ e.2 ∈ ids)
    (a b : ℕ) (h : adjB edges a b = true) : b ∈ ids := by
  unfold adjB at h
  rw [List.any_eq_true] at h
  obtain ⟨e, he, hcond⟩ := h
  simp only [Bool.or_eq_true, Bool.and_eq_true, beq_iff_eq] at hcond
  rcases hcond with ⟨h1, h2⟩ | ⟨h1, h2⟩
  · rw [← h2]; exact (hwf e he).2
  · rw [← h1]; exact (hwf e he).1

lemma walk_reachable (edges : List (ℕ × ℕ)) :
    ∀ (p : List ℕ) (s t : ℕ), p.head? = some s → p.getLast? = some t →
      p.Chain' (fun a b => adjB edges a b = true) → Reachable edges s t := by
  intro p
  induction p with
  | nil => intro s t h _ _; simp at h
  | cons a q ih =>
      intro s t hh hl hc
      have has : a = s := by simpa using hh
      subst has
      cases q with
      | nil =>
          have : a = t := by simpa using hl
          subst this
          exact Relation.ReflTransGen.refl
      | cons b q2 =>
          rw [List.getLast?_cons_cons] at hl
          obtain ⟨hadj, hc2⟩ := List.chain'_cons.mp hc
          exact Relation.ReflTransGen.head hadj (ih b t (by simp) hl hc2)

lemma reachable_walk (ids : List ℕ) (edges : List (ℕ × ℕ)) (s t : ℕ)
    (hwf : ∀ e ∈ edges, e.1 ∈ ids ∧ e.2 ∈ ids) (hs : s ∈ ids)
    (h : Reachable edges s t) : ∃ q, ValidWalk ids edges s t q := by
  induction h with
  | refl =>
      refine ⟨[s], rfl, rfl, rfl, ?_⟩
      intro x hx
      rw [List.mem_singleton.mp hx]
      exact hs
  | tail hab hadj ih =>
      obtain ⟨q, hqh, hql, hqc0, hqm⟩ := ih
      have hqc := (chainB_iff edges q).mp hqc0
      rename_i b c
      refine ⟨q ++ [c], ?_, ?_, ?_, ?_⟩
      · rw [List.head?_append, hqh]
        rfl
      · exact List.getLast?_concat q
      · rw [chainB_iff]
        refine List.chain'_append.mpr ⟨hqc, List.chain'_singleton c, ?_⟩
        intro u hu y hy
        have hub : b = u := by
          rw [hql] at hu
          simpa using hu
        have hyc : c = y := by simpa using hy
        rw [← hub, ← hyc]
        exact hadj
      · intro z hz
        rcases List.mem_append.mp hz with hz | hz
        · exact hqm z hz
        · rw [List.mem_singleton.mp hz]
          exact adjB_right_mem ids edges hwf b c hadj

/-- C4 (amended): when networkx is available, `build_nx_and_path` returns
`None` (the NotReachable outcome) exactly when start and end do not both
belong to the graph's nodes with `end` reachable from `start` — i.e. for
absent ids or disconnected components, and in no other circumstance; but when
networkx is unavailable (`HAVE_NX` false) it returns `None` regardless of
connectivity, so NotReachable is also a library-availability fact. -/
theorem C4_not_reachable (nodes : List Node) (edges : List (ℕ × ℕ))
    (w : ℕ → ℕ → ℚ) (s t : ℕ)
    (hwf : ∀ e ∈ edges, e.1 ∈ nodes.map (fun n => n.id) ∧
      e.2 ∈ nodes.map (fun n => n.id)) :
    build_nx_and_path false nodes edges w s t = none ∧
    (build_nx_and_path true nodes edges w s t = none ↔
      ¬(s ∈ nodes.map (fun n => n.id) ∧ t ∈ nodes.map (fun n => n.id) ∧
        Reachable edges s t)) := by
  refine ⟨rfl, ?_⟩
  have hred : build_nx_and_path true nodes edges w s t =
      pickMin w (routeCands (nodes.map fun n => n.id) edges s t) := rfl
  rw [hred, pickMin_eq_none_iff]
  constructor
  · rintro hnil ⟨hs, ht, hr⟩
    obtain ⟨q, hq⟩ := reachable_walk (nodes.map fun n => n.id) edges s t hwf hs hr
    obtain ⟨p, hp, _⟩ := exists_route_le (nodes.map fun n => n.id) edges s t
      (fun _ _ => 0) (fun _ _ => le_refl 0) q.length q (le_refl _) hq
    rw [hnil] at hp
    exact absurd hp (List.not_mem_nil p)
  · intro hn
    by_contra hne
    apply hn
    obtain ⟨p, hp⟩ := List.exists_mem_of_ne_nil _ hne
    obtain ⟨hsub, hvalid⟩ := (mem_routeCands _ edges s t p).mp hp
    obtain ⟨hh, hl, hc, hm⟩ := hvalid
    refine ⟨?_, ?_, walk_reachable edges p s t hh hl ((chainB_iff edges p).mp hc)⟩
    · exact hm s (List.mem_of_mem_head? (by rw [hh]; rfl))
    · exact hm t (List.mem_of_mem_getLast? (by rw [hl]; rfl))

/-- C4 witness: a three-node graph with one edge; node 3 is disconnected. -/
theorem C4_not_reachable_witness :
    build_nx_and_path false
      [(⟨1, 0, 0, none⟩ : Node), ⟨2, 1, 0, none⟩, ⟨3, 5, 5, none⟩]
      [(1, 2)] (fun _ _ => 1) 1 3 = none ∧
    (build_nx_and_path true
      [(⟨1, 0, 0, none⟩ : Node), ⟨2, 1, 0, none⟩, ⟨3, 5, 5, none⟩]
      [(1, 2)] (fun _ _ => 1) 1 3 = none ↔
      ¬(1 ∈ [(⟨1, 0, 0, none⟩ : Node), ⟨2, 1, 0, none⟩, ⟨3, 5, 5, none⟩].map
          (fun n => n.id) ∧
        3 ∈ [(⟨1, 0, 0, none⟩ : Node), ⟨2, 1, 0, none⟩, ⟨3, 5, 5, none⟩].map
          (fun n => n.id) ∧
        Reachable [(1, 2)] 1 3)) :=
  C4_not_reachable [⟨1, 0, 0, none⟩, ⟨2, 1, 0, none⟩, ⟨3, 5, 5, none⟩]
    [(1, 2)] (fun _ _ => 1) 1 3 (by decide)

/-- C4 counterexample: on the same connected two-node graph, the query
returns `None` solely because networkx is unavailable, while with the library
present it returns a path — so NotReachable is *not* purely a
graph-connectivity fact in the code. -/
theorem C4_counterexample :
    build_nx_and_path false [(⟨1, 0, 0, none⟩ : Node), ⟨2, 1, 0, none⟩]
      [(1, 2)] (fun _ _ => 1) 1 2 = none ∧
    build_nx_and_path true [(⟨1, 0, 0, none⟩ : Node), ⟨2, 1, 0, none⟩]
      [(1, 2)] (fun _ _ => 1) 1 2 ≠ none := by
  refine ⟨rfl, ?_⟩
  have hred : build_nx_and_path true [(⟨1, 0, 0, none⟩ : Node), ⟨2, 1, 0, none⟩]
      [(1, 2)] (fun _ _ => 1) 1 2 =
      pickMin (fun _ _ => 1) (routeCands [1, 2] [(1, 2)] 1 2) := rfl
  rw [hred, Ne, pickMin_eq_none_iff]
  intro hnil
  have hmem : [1, 2] ∈ routeCands [1, 2] [(1, 2)] 1 2 := by
    exact (mem_routeCands _ _ _ _ _).mpr
      ⟨List.Subperm.refl _, rfl, rfl, by decide, by decide⟩
  rw [hnil] at hmem
  exact absurd hmem (List.not_mem_nil _)

/-- C5 (amended): when networkx is available and the query returns a path,
that path starts at `start_id`, ends at `end_id`, repeats no node, is itself
a valid route, and its summed weight is minimal over *all* walks of the
pruned graph between the two endpoints (stated for an arbitrary nonnegative
edge-weight map, covering the source's Euclidean weights). -/
theorem C5_path_minimality (nodes : List Node) (edges : List (ℕ × ℕ))
    (w : ℕ → ℕ → ℚ) (s t : ℕ) (p : List ℕ)
    (hnd : (nodes.map fun n => n.id).Nodup)
    (hw : ∀ a b, 0 ≤ w a b)
    (hp : build_nx_and_path true nodes edges w s t = some p) :
    p.head? = some s ∧ p.getLast? = some t ∧ p.Nodup ∧
    ValidWalk (nodes.map fun n => n.id) edges s t p ∧
    ∀ q, ValidWalk (nodes.map fun n => n.id) edges s t q →
      pathWeight w p ≤ pathWeight w q := by
  have hp2 : pickMin w (routeCands (nodes.map fun n => n.id) edges s t) = some p := hp
  obtain ⟨hmem, hmin⟩ := pickMin_spec w _ p hp2
  obtain ⟨hsub, hvalid⟩ := (mem_routeCands _ edges s t p).mp hmem
  have hnodup : p.Nodup := by
    obtain ⟨l, hl1, hl2⟩ := hsub
    exact hl1.nodup_iff.mp (List.Nodup.sublist hl2 hnd)
  refine ⟨hvalid.1, hvalid.2.1, hnodup, hvalid, ?_⟩
  intro q hq
  obtain ⟨p2, hp2mem, hp2le⟩ :=
    exists_route_le _ edges s t w hw q.length q (le_refl _) hq
  exact (hmin p2 hp2mem).trans hp2le

/-- C5 witness: the two-node graph with its single edge; the returned route
`[1, 2]` is simple, spans the endpoints, and is minimal among all walks. -/
theorem C5_path_minimality_witness :
    ([1, 2] : List ℕ).head? = some 1 ∧ ([1, 2] : List ℕ).getLast? = some 2 ∧
    ([1, 2] : List ℕ).Nodup ∧
    ValidWalk ([(⟨1, 0, 0, none⟩ : Node), ⟨2, 1, 0, none⟩].map fun n => n.id)
      [(1, 2)] 1 2 [1, 2] ∧
    ∀ q, ValidWalk ([(⟨1, 0, 0, none⟩ : Node), ⟨2, 1, 0, none⟩].map fun n => n.id)
      [(1, 2)] 1 2 q →
      pathWeight (fun _ _ => 1) [1, 2] ≤ pathWeight (fun _ _ => 1) q := by
  have hroutes : routeCands [1, 2] [(1, 2)] 1 2 = [[1, 2]] := by decide
  refine C5_path_minimality [⟨1, 0, 0, none⟩, ⟨2, 1, 0, none⟩] [(1, 2)]
    (fun _ _ => 1) 1 2 [1, 2] (by decide) (fun _ _ => by norm_num) ?_
  have hred : build_nx_and_path true [(⟨1, 0, 0, none⟩ : Node), ⟨2, 1, 0, none⟩]
      [(1, 2)] (fun _ _ => 1) 1 2 =
      pickMin (fun _ _ => 1) (routeCands [1, 2] [(1, 2)] 1 2) := rfl
  rw [hred, hroutes]
  rfl

/-- C5 counterexample: a path exists between nodes 1 and 2 (they are directly
connected), yet with networkx unavailable the query returns `None` rather
than a minimum-weight node sequence. -/
theorem C5_counterexample :
    (∃ q, ValidWalk [1, 2] [(1, 2)] 1 2 q) ∧
    build_nx_and_path false [(⟨1, 0, 0, none⟩ : Node), ⟨2, 1, 0, none⟩]
      [(1, 2)] (fun _ _ => 1) 1 2 = none := by
  exact ⟨⟨[1, 2], rfl, rfl, by decide, by decide⟩, rfl⟩
